import Mathlib

/-!
Verification of the `lem` environment-variable distribution engine.

Go strings are modelled as lists of characters (`GoStr`); Go maps as
association lists with insert-overwrites semantics (`insertAL` /
`lookupAL`), iterated in list order (Go map iteration order is
unspecified, so every theorem below is stated for an arbitrary order or
is order-independent).  Filesystem effects are made explicit: functions
that write files return the written content, and functions that stop
before a filesystem access return an outcome constructor recording that.
-/

namespace Lem

/-- Go strings, modelled as lists of characters. -/
abbrev GoStr := List Char

/-- Association list with string-like keys; models a Go map together with
an iteration order. -/
abbrev AList (κ α : Type) := List (κ × α)

/-- Model of Go map lookup `m[k]` (first matching key; the insert below
keeps keys unique, so first = only). -/
def lookupAL {κ α : Type} [DecidableEq κ] : AList κ α → κ → Option α
  | [], _ => none
  | (k, v) :: rest, q => if k = q then some v else lookupAL rest q

/-- Model of Go map assignment `m[k] = v`: overwrite in place if the key
exists, otherwise append. -/
def insertAL {κ α : Type} [DecidableEq κ] : AList κ α → κ → α → AList κ α
  | [], k, v => [(k, v)]
  | (k', v') :: rest, k, v =>
      if k' = k then (k, v) :: rest else (k', v') :: insertAL rest k v

/-- The central environment mapping: env-variable name to value. -/
abbrev EnvMap := AList GoStr GoStr

/-- Model of Go `strings.HasPrefix s pre`. -/
def hasPrefix (s pre : GoStr) : Bool := pre.isPrefixOf s

/-- Model of Go `strings.Replace(s, old, new, 1)`: replace the first
occurrence of `old` in `s` by `new`, leaving the rest of `s` unchanged. -/
def replaceFirst : GoStr → GoStr → GoStr → GoStr
  | [], old, new => if old.isPrefixOf ([] : GoStr) then new else []
  | c :: rest, old, new =>
      if old.isPrefixOf (c :: rest) then new ++ (c :: rest).drop old.length
      else c :: replaceFirst rest old new

/-- Group settings, from the `Group` struct of the source (TOML table
`[group.<id>]`). -/
structure Group where
  Prefix : GoStr
  Dir : GoStr
  Replaceable : List GoStr
  Plain : List GoStr
  DirenvSupport : List GoStr
  IsCheck : Bool

/-- One iteration of the `for k, v := range base` loop body of `makeEnv`:
direct-prefix rule, then each replaceable-prefix rule, then each plain
key, inserting into the accumulated result in that order. -/
def makeEnvStep (group : Group) (e : EnvMap) (kv : GoStr × GoStr) : EnvMap :=
  let k := kv.1
  let v := kv.2
  let e1 := if hasPrefix k (group.Prefix ++ ['_']) then insertAL e k v else e
  let e2 := group.Replaceable.foldl
    (fun acc p =>
      if hasPrefix k (p ++ ['_']) then
        insertAL acc (replaceFirst k p group.Prefix) v
      else acc) e1
  group.Plain.foldl
    (fun acc key => if k = key then insertAL acc k v else acc) e2

/-- Model of `makeEnv (group, base, size)`: partition the central env for
one group (the `size` capacity hint has no observable effect and is
dropped). `base` carries an explicit iteration order. -/
def makeEnv (group : Group) (base : EnvMap) : EnvMap :=
  base.foldl (makeEnvStep group) []

/-- Keys of an env mapping. -/
def envKeys (env : EnvMap) : List GoStr := env.map Prod.fst

/-- A source key matches a group when one of the three rules of `makeEnv`
applies to it: direct prefix, replaceable prefix, or plain key. -/
def matchesGroup (group : Group) (k : GoStr) : Bool :=
  hasPrefix k (group.Prefix ++ ['_'])
    || group.Replaceable.any (fun p => hasPrefix k (p ++ ['_']))
    || group.Plain.any (fun key => k = key)

/-! ### Env codec: `readEnv` and `writeEnv` -/

/-- Go whitespace characters recognised by `strings.TrimSpace` (restricted
to the ASCII range, the only one exercised here). -/
def isSpace (c : Char) : Bool :=
  c = ' ' || c = Char.ofNat 9 || c = Char.ofNat 10 || c = Char.ofNat 11
    || c = Char.ofNat 12 || c = Char.ofNat 13

/-- Model of Go `strings.TrimSpace`. -/
def trim (s : GoStr) : GoStr :=
  ((s.dropWhile isSpace).reverse.dropWhile isSpace).reverse

/-- Split a character stream at a separator the way `bufio.Scanner` with
`ScanLines` splits file content at newlines: no token is produced for the
empty file, and content ending in a separator yields no trailing empty
token. -/
def splitOnChar (sep : Char) : GoStr → List GoStr
  | [] => []
  | c :: rest =>
      if c = sep then [] :: splitOnChar sep rest
      else
        match splitOnChar sep rest with
        | [] => [[c]]
        | l :: ls => (c :: l) :: ls

/-- The lines of a file content, as produced by the line scanner. -/
def splitLines (content : GoStr) : List GoStr := splitOnChar (Char.ofNat 10) content

/-- Model of `strings.SplitN (line, sep, 2)` for the one-character
separator of the codec: `none` when the line holds no separator
(the `len(kv) == 2` test of the source fails), otherwise the parts
before and after the first one. -/
def splitEq : GoStr → Option (GoStr × GoStr)
  | [] => none
  | c :: rest =>
      if c = '=' then some ([], rest)
      else (splitEq rest).map (fun kv => (c :: kv.1, kv.2))

/-- One iteration of the scan loop of `readEnv`: trim the raw line, skip
blank lines and comment lines, ignore lines without the separator, and
otherwise insert the trimmed key and value. -/
def readEnvLine (env : EnvMap) (raw : GoStr) : EnvMap :=
  let line := trim raw
  if line = [] then env
  else if hasPrefix line ['#'] then env
  else
    match splitEq line with
    | none => env
    | some kv => insertAL env (trim kv.1) (trim kv.2)

/-- The scan loop of `readEnv` over a list of lines. -/
def readEnvLines (lines : List GoStr) : EnvMap :=
  lines.foldl readEnvLine []

/-- Model of `readEnv (path, size)` on the content of the file at `path`
(the `size` capacity hint and the returned insert count are dropped;
I/O errors of opening and scanning are outside this lexical model). -/
def readEnvContent (content : GoStr) : EnvMap :=
  readEnvLines (splitLines content)

/-- Strict lexicographic byte order on strings, the order `slices.Sort`
uses for `[]string`. -/
def lexLt : GoStr → GoStr → Bool
  | [], [] => false
  | [], _ :: _ => true
  | _ :: _, [] => false
  | a :: s, b :: t => if a < b then true else if b < a then false else lexLt s t

/-- Insert a string into a lexicographically sorted list. -/
def insertSorted (k : GoStr) : List GoStr → List GoStr
  | [] => [k]
  | x :: xs => if lexLt k x then k :: x :: xs else x :: insertSorted k xs

/-- Model of `slices.Sort` on the key list of `writeEnv`. -/
def sortStrs (l : List GoStr) : List GoStr := l.foldr insertSorted []

/-- The value `env[k]` of a key known to be present (`writeEnv` only looks
up keys taken from `env` itself). -/
def lookupD (env : EnvMap) (k : GoStr) : GoStr := (lookupAL env k).getD []

/-- The lines `writeEnv` emits: one `key=value` line per entry, keys in
ascending lexical order. -/
def writeEnvLines (env : EnvMap) : List GoStr :=
  (sortStrs (envKeys env)).map (fun k => k ++ '=' :: lookupD env k)

/-- Model of `writeEnv (path, env)`: the full content written to the file,
each emitted line terminated by a newline. -/
def writeEnvContent (env : EnvMap) : GoStr :=
  ((writeEnvLines env).map (fun line => line ++ [Char.ofNat 10])).flatten

/-! ### Path resolution: `Config.resolvePath`

Absolute Unix paths are handled as lists of segments; the lexical
operations `Clean`, `Join` and `Rel` of Go package `path/filepath` are
modelled on that representation, candidate paths as character lists. -/

/-- The segments of a slash-separated path (empty segments dropped, as
`filepath.Clean` drops duplicate separators). -/
def pathSegs (p : GoStr) : List GoStr :=
  (splitOnChar '/' p).filter (fun s => s ≠ [])

/-- Model of `filepath.IsAbs` for Unix paths. -/
def isAbsPath (p : GoStr) : Bool := hasPrefix p ['/']

/-- Model of `filepath.Clean` on the segments of an absolute path:
drop `.` segments, let `..` segments swallow the previous segment
(or vanish at the root). -/
def cleanAbsSegs (segs : List GoStr) : List GoStr :=
  segs.foldl
    (fun acc seg =>
      if seg = ['.'] then acc
      else if seg = ['.', '.'] then acc.dropLast
      else acc ++ [seg]) []

/-- Model of the `absPath` computation of `resolvePath`: clean the
candidate when absolute, otherwise clean its join to the configuration
directory `dir` (itself a cleaned absolute path). -/
def joinClean (dir : List GoStr) (candidate : GoStr) : List GoStr :=
  if isAbsPath candidate then cleanAbsSegs (pathSegs candidate)
  else cleanAbsSegs (dir ++ pathSegs candidate)

/-- Drop the longest common segment prefix of two paths. -/
def dropCommon : List GoStr → List GoStr → List GoStr × List GoStr
  | a :: as, b :: bs => if a = b then dropCommon as bs else (a :: as, b :: bs)
  | as, bs => (as, bs)

/-- Model of `filepath.Rel (base, targ)` for two cleaned absolute paths
(for such inputs `Rel` cannot fail): one `..` per remaining base segment,
then the remaining target segments. -/
def relSegs (base targ : List GoStr) : List GoStr :=
  let bt := dropCommon base targ
  bt.1.map (fun _ => ['.', '.']) ++ bt.2

/-- Render a relative path from its segments (`.` for the empty one), the
string `resolvePath` applies its traversal check to. -/
def joinSegs : List GoStr → GoStr
  | [] => ['.']
  | [s] => s
  | s :: rest => s ++ '/' :: joinSegs rest

/-- Outcome of the lexical phase of `resolvePath`: either the
outside-of-project-root error, raised before any filesystem access, or
the cleaned absolute path handed on to `os.Stat`. -/
inductive ResolveOutcome
  | escapesRoot (absPath : List GoStr)
  | statPath (absPath : List GoStr)
deriving DecidableEq

/-- Model of `Config.resolvePath` up to its filesystem access: compute the
cleaned absolute path of `candidate`, compute its form relative to `root`,
and fail with the escapes-root error when that form starts with a
parent-traversal `..`; otherwise proceed to stat the path. -/
def resolvePath (root dir : List GoStr) (candidate : GoStr) : ResolveOutcome :=
  let absSegs := joinClean dir candidate
  if hasPrefix (joinSegs (relSegs root absSegs)) ['.', '.'] then
    ResolveOutcome.escapesRoot absSegs
  else
    ResolveOutcome.statPath absSegs

/-- Whether the outcome is the escapes-root error. -/
def isEscape : ResolveOutcome → Bool
  | ResolveOutcome.escapesRoot _ => true
  | ResolveOutcome.statPath _ => false

/-! ### The distribution loop of `Config.Run` -/

/-- The empty-value test of `Run`: the zero-length string or one of the
literal placeholder pairs of apostrophes, double quotes, or backticks. -/
def isEmptyValue (v : GoStr) : Bool :=
  v = [] || v = [Char.ofNat 39, Char.ofNat 39]
    || v = [Char.ofNat 34, Char.ofNat 34]
    || v = [Char.ofNat 96, Char.ofNat 96]

/-- The first entry of the partitioned mapping whose value is empty, in
iteration order (which one of several offenders is reported is
iteration-order dependent in the source; the error itself is not). -/
def firstEmpty : EnvMap → Option GoStr
  | [] => none
  | (k, v) :: rest => if isEmptyValue v then some k else firstEmpty rest

/-- The per-group error of the distribution loop. -/
inductive RunErr
  | emptyValue (k : GoStr)
deriving DecidableEq

/-- Model of `filepath.Join (dir, ".env")` for a clean directory path. -/
def envTarget (dir : GoStr) : GoStr := dir ++ '/' :: '.' :: 'e' :: 'n' :: 'v' :: []

/-- Model of the group loop of `Config.Run`: for each group in iteration
order, partition the central env, run the empty-value check when the
group asks for it, and otherwise record the write of the group env file.
Returns the writes performed and the error that stopped the loop, if any.
Directory validation and `.envrc` generation are filesystem steps assumed
to succeed here; they do not touch the env files this model tracks. -/
def runGroups (e : EnvMap) : List (GoStr × Group) → List (GoStr × EnvMap) × Option RunErr
  | [] => ([], none)
  | (_, g) :: rest =>
      let o := makeEnv g e
      match (if g.IsCheck then firstEmpty o else none) with
      | some k => ([], some (RunErr.emptyValue k))
      | none =>
          let tail := runGroups e rest
          ((envTarget g.Dir, o) :: tail.1, tail.2)

/-! ### Stage state store: `storeStage`, `loadStage`, `Switch`, `Current` -/

/-- The stage table of the configuration: stage name to env file path. -/
abbrev StageTable := AList String String

/-- The parsed content of the state file: configuration path to the
nested one-field object holding the stage name. -/
abbrev StoreState := AList String (AList String String)

/-- The state file as `storeStage` and `loadStage` find it on disk. -/
inductive StoreFile
  | missing
  | emptyFile
  | malformed
  | parsed (st : StoreState)
deriving DecidableEq

/-- Errors of the stage operations. -/
inductive LemErr
  | stageTableEmpty
  | stageNotSet (stage : String)
  | storeUnreadable
  | storeParseError
  | noStageStored (path : String)
  | noStageValue (path : String)
deriving DecidableEq

/-- The parsed base mapping `storeStage` starts from: the file content
when present and parseable, the empty mapping when the file is missing or
empty. -/
def fileState : StoreFile → StoreState
  | StoreFile.parsed st => st
  | _ => []

/-- Model of `Config.storeStage`: read-and-merge the state file when it
exists and is non-empty (a parse failure is returned before anything is
written, leaving the file as it was), set the entry of this configuration
path, and rewrite the whole file. The returned `StoreFile` is the file
content after the call. -/
def storeStage (file : StoreFile) (cfgPath stage : String) : StoreFile × Option LemErr :=
  match file with
  | StoreFile.malformed => (StoreFile.malformed, some LemErr.storeParseError)
  | StoreFile.parsed st =>
      (StoreFile.parsed (insertAL st cfgPath [("stage", stage)]), none)
  | _ => (StoreFile.parsed (insertAL [] cfgPath [("stage", stage)]), none)

/-- Model of `Config.loadStage`: read the state file (`missing` is the
unreadable error; empty or malformed content fails to deserialize), look
up this configuration path, then the stage field. -/
def loadStage (file : StoreFile) (cfgPath : String) : Except LemErr String :=
  match file with
  | StoreFile.missing => Except.error LemErr.storeUnreadable
  | StoreFile.emptyFile => Except.error LemErr.storeParseError
  | StoreFile.malformed => Except.error LemErr.storeParseError
  | StoreFile.parsed st =>
      match lookupAL st cfgPath with
      | none => Except.error (LemErr.noStageStored cfgPath)
      | some v =>
          match lookupAL v "stage" with
          | none => Except.error (LemErr.noStageValue cfgPath)
          | some stage => Except.ok stage

/-- Model of `Config.Switch`: require a non-empty stage table, require the
stage to be declared in it (the filesystem stat of the stage env path in
`validateStagePair` is assumed to succeed for a declared stage), then
store the selection. Returns the state file after the call and the error,
if any. -/
def SwitchModel (table : StageTable) (cfgPath : String) (file : StoreFile)
    (stage : String) : StoreFile × Option LemErr :=
  if table = [] then (file, some LemErr.stageTableEmpty)
  else
    match lookupAL table stage with
    | none => (file, some (LemErr.stageNotSet stage))
    | some _ => storeStage file cfgPath stage

/-- Model of `Config.Current`: require a non-empty stage table, load and
report the stored stage of this configuration path, re-checking that it
is still declared in the stage table. -/
def CurrentModel (table : StageTable) (cfgPath : String) (file : StoreFile) :
    Except LemErr String :=
  if table = [] then Except.error LemErr.stageTableEmpty
  else
    match loadStage file cfgPath with
    | Except.error e => Except.error e
    | Except.ok stage =>
        match lookupAL table stage with
        | none => Except.error (LemErr.stageNotSet stage)
        | some _ => Except.ok stage

/-! ### Basic lemmas about the map model -/

theorem lookupAL_insertAL {κ α : Type} [DecidableEq κ]
    (m : AList κ α) (k : κ) (v : α) (q : κ) :
    lookupAL (insertAL m k v) q = if k = q then some v else lookupAL m q := by
  induction m with
  | nil => simp [insertAL, lookupAL]
  | cons kv rest ih =>
      obtain ⟨k', v'⟩ := kv
      by_cases h : k' = k
      · subst h
        by_cases hq : k' = q <;> simp [insertAL, lookupAL, hq]
      · by_cases hq : k' = q
        · subst hq
          have hk : ¬ k = k' := fun hh => h hh.symm
          simp [insertAL, lookupAL, h, hk]
        · simp [insertAL, lookupAL, h, hq, ih]

theorem mem_keys_insertAL {κ α : Type} [DecidableEq κ]
    (m : AList κ α) (k : κ) (v : α) (q : κ)
    (h : q ∈ (insertAL m k v).map Prod.fst) :
    q = k ∨ q ∈ m.map Prod.fst := by
  induction m with
  | nil => simpa [insertAL] using h
  | cons kv rest ih =>
      obtain ⟨k', v'⟩ := kv
      by_cases hk : k' = k
      · subst hk
        rcases (by simpa [insertAL] using h : q = k' ∨ q ∈ rest.map Prod.fst) with h1 | h1
        · exact Or.inl h1
        · exact Or.inr (by simp [h1])
      · rcases (by simpa [insertAL, hk] using h :
            q = k' ∨ q ∈ (insertAL rest k v).map Prod.fst) with h1 | h1
        · exact Or.inr (by simp [h1])
        · rcases ih h1 with h2 | h2
          · exact Or.inl h2
          · exact Or.inr (by simp [h2])

theorem lookupAL_mem {κ α : Type} [DecidableEq κ]
    (m : AList κ α) (k : κ) (v : α) (h : lookupAL m k = some v) :
    (k, v) ∈ m := by
  induction m with
  | nil => simp [lookupAL] at h
  | cons kv rest ih =>
      obtain ⟨k', v'⟩ := kv
      by_cases hk : k' = k
      · subst hk
        have h' : some v' = some v := by simpa [lookupAL] using h
        injection h' with h2
        subst h2
        exact List.mem_cons_self _ _
      · simp only [lookupAL, if_neg hk] at h
        exact List.mem_cons_of_mem _ (ih h)

theorem lookupAL_eq_none {κ α : Type} [DecidableEq κ]
    (m : AList κ α) (q : κ) :
    lookupAL m q = none ↔ q ∉ m.map Prod.fst := by
  induction m with
  | nil => simp [lookupAL]
  | cons kv rest ih =>
      obtain ⟨k', v'⟩ := kv
      by_cases hk : k' = q
      · subst hk
        simp [lookupAL]
      · have hqk : ¬ q = k' := fun he => hk he.symm
        simp only [lookupAL, if_neg hk, List.map_cons, List.mem_cons]
        rw [ih]
        tauto

theorem mem_keys_lookupAL {κ α : Type} [DecidableEq κ]
    (m : AList κ α) (q : κ) (h : q ∈ m.map Prod.fst) :
    ∃ v, lookupAL m q = some v := by
  cases hl : lookupAL m q with
  | some v => exact ⟨v, rfl⟩
  | none => exact absurd h ((lookupAL_eq_none m q).1 hl)

/-! ### Lemmas about the lexicographic order and sorting -/

theorem lexLt_irrefl (a : GoStr) : lexLt a a = false := by
  induction a with
  | nil => rfl
  | cons c s ih => simp [lexLt, ih]

theorem lexLt_trans (a b c : GoStr) (hab : lexLt a b = true)
    (hbc : lexLt b c = true) : lexLt a c = true := by
  induction a generalizing b c with
  | nil =>
      cases b with
      | nil => simp [lexLt] at hab
      | cons y t =>
          cases c with
          | nil => simp [lexLt] at hbc
          | cons z u => simp [lexLt]
  | cons x s ih =>
      cases b with
      | nil => simp [lexLt] at hab
      | cons y t =>
          cases c with
          | nil => simp [lexLt] at hbc
          | cons z u =>
              simp only [lexLt] at hab hbc ⊢
              rcases lt_trichotomy x y with hxy | hxy | hxy
              · rcases lt_trichotomy y z with hyz | hyz | hyz
                · simp [lt_trans hxy hyz]
                · subst hyz
                  simp [hxy]
                · rw [if_neg (lt_asymm hyz), if_pos hyz] at hbc
                  exact Bool.noConfusion hbc
              · subst hxy
                rcases lt_trichotomy x z with hxz | hxz | hxz
                · simp [hxz]
                · subst hxz
                  rw [if_neg (lt_irrefl x), if_neg (lt_irrefl x)] at hab
                  rw [if_neg (lt_irrefl x), if_neg (lt_irrefl x)] at hbc
                  rw [if_neg (lt_irrefl x), if_neg (lt_irrefl x)]
                  exact ih t u hab hbc
                · rw [if_neg (lt_asymm hxz), if_pos hxz] at hbc
                  exact Bool.noConfusion hbc
              · rw [if_neg (lt_asymm hxy), if_pos hxy] at hab
                exact Bool.noConfusion hab

theorem lexLt_asymm (a b : GoStr) (h : lexLt a b = true) : lexLt b a = false := by
  by_contra hc
  have hba : lexLt b a = true := by
    cases hh : lexLt b a with
    | true => rfl
    | false => exact absurd hh hc
  have hcon := lexLt_trans a b a h hba
  rw [lexLt_irrefl] at hcon
  exact Bool.noConfusion hcon

theorem insertSorted_perm (k : GoStr) (l : List GoStr) :
    List.Perm (insertSorted k l) (k :: l) := by
  induction l with
  | nil => exact List.Perm.refl _
  | cons x xs ih =>
      by_cases h : lexLt k x = true
      · simp [insertSorted, h]
      · simp only [insertSorted, if_neg h]
        exact (ih.cons x).trans (List.Perm.swap k x xs)

theorem mem_insertSorted (k y : GoStr) (l : List GoStr)
    (h : y ∈ insertSorted k l) : y = k ∨ y ∈ l := by
  have h2 := (insertSorted_perm k l).mem_iff.1 h
  simpa using h2

theorem insertSorted_sorted (k : GoStr) (l : List GoStr)
    (h : l.Pairwise (fun a b => lexLt b a = false)) :
    (insertSorted k l).Pairwise (fun a b => lexLt b a = false) := by
  induction l with
  | nil => simp [insertSorted]
  | cons x xs ih =>
      rcases List.pairwise_cons.1 h with ⟨hx, hxs⟩
      by_cases hkx : lexLt k x = true
      · simp only [insertSorted, if_pos hkx]
        refine List.pairwise_cons.2 ⟨?_, h⟩
        intro y hy
        rcases List.mem_cons.1 hy with rfl | hy
        · exact lexLt_asymm k y hkx
        · cases hyk : lexLt y k with
          | false => rfl
          | true =>
              have h1 := lexLt_trans y k x hyk hkx
              rw [hx y hy] at h1
              exact Bool.noConfusion h1
      · simp only [insertSorted, if_neg hkx]
        refine List.pairwise_cons.2 ⟨?_, ih hxs⟩
        intro y hy
        rcases mem_insertSorted k y xs hy with rfl | hy
        · simpa using hkx
        · exact hx y hy

theorem sortStrs_perm (l : List GoStr) : List.Perm (sortStrs l) l := by
  induction l with
  | nil => exact List.Perm.refl _
  | cons x xs ih =>
      have h1 : sortStrs (x :: xs) = insertSorted x (sortStrs xs) := rfl
      rw [h1]
      exact (insertSorted_perm x (sortStrs xs)).trans (ih.cons x)

theorem sortStrs_sorted (l : List GoStr) :
    (sortStrs l).Pairwise (fun a b => lexLt b a = false) := by
  induction l with
  | nil => simp [sortStrs]
  | cons x xs ih => exact insertSorted_sorted x (sortStrs xs) ih

/-! ### Codec lemmas -/

/-- A string with no leading and no trailing whitespace, i.e. one that
`trim` leaves unchanged from either end. -/
def noEdgeSpace (s : GoStr) : Prop :=
  s.dropWhile isSpace = s ∧ s.reverse.dropWhile isSpace = s.reverse

/-- A key the codec transports verbatim: no newline, no separator, no
edge whitespace, and not starting with the comment character. -/
def cleanKey (k : GoStr) : Prop :=
  noEdgeSpace k ∧ Char.ofNat 10 ∉ k ∧ '=' ∉ k ∧ hasPrefix k ['#'] = false

/-- A value the codec transports verbatim: no newline and no edge
whitespace. -/
def cleanVal (v : GoStr) : Prop := noEdgeSpace v ∧ Char.ofNat 10 ∉ v

/-- A line the scan loop of `readEnv` drops: blank after trimming,
a comment, or holding no separator. -/
def skippable (s : GoStr) : Prop :=
  trim s = [] ∨ hasPrefix (trim s) ['#'] = true ∨ splitEq (trim s) = none

theorem head_not_of_dropWhile (p : Char → Bool) (c : Char) (l : GoStr)
    (h : (c :: l).dropWhile p = c :: l) : p c = false := by
  cases hp : p c with
  | false => rfl
  | true =>
      rw [List.dropWhile_cons, if_pos (by simp [hp])] at h
      have hlen := (List.dropWhile_sublist (l := l) p).length_le
      rw [h] at hlen
      simp at hlen

theorem dropWhile_append_sep (p : Char → Bool) (l t : GoStr) (sep : Char)
    (h : l.dropWhile p = l) (hsep : p sep = false) :
    (l ++ sep :: t).dropWhile p = l ++ sep :: t := by
  cases l with
  | nil => simp [List.dropWhile_cons, hsep]
  | cons c l' =>
      have hc := head_not_of_dropWhile p c l' h
      simp [List.dropWhile_cons, hc]

theorem trim_of_noEdge (s : GoStr) (h : noEdgeSpace s) : trim s = s := by
  unfold trim
  rw [h.1, h.2, List.reverse_reverse]

theorem noEdgeSpace_line (k v : GoStr) (hk : noEdgeSpace k) (hv : noEdgeSpace v) :
    noEdgeSpace (k ++ '=' :: v) := by
  constructor
  · exact dropWhile_append_sep isSpace k v '=' hk.1 (by decide)
  · have hrev : (k ++ '=' :: v).reverse = v.reverse ++ '=' :: k.reverse := by
      simp [List.reverse_append]
    rw [hrev]
    exact dropWhile_append_sep isSpace v.reverse k.reverse '=' hv.2 (by decide)

theorem splitEq_append (k v : GoStr) (h : '=' ∉ k) :
    splitEq (k ++ '=' :: v) = some (k, v) := by
  induction k with
  | nil => simp [splitEq]
  | cons c k' ih =>
      have hc : ¬ c = '=' := fun he => h (by simp [he])
      have h' : '=' ∉ k' := fun hm => h (List.mem_cons_of_mem _ hm)
      simp [splitEq, hc, ih h']

theorem hasPrefix_hash_line (k v : GoStr) (hk : hasPrefix k ['#'] = false) :
    hasPrefix (k ++ '=' :: v) ['#'] = false := by
  cases k with
  | nil => simp [hasPrefix, List.isPrefixOf]
  | cons c k' =>
      simp only [hasPrefix, List.cons_append, List.isPrefixOf, Bool.and_eq_false_iff] at hk ⊢
      rcases hk with hk | hk
      · exact Or.inl hk
      · simp [List.isPrefixOf] at hk

theorem readEnvLine_kv (e : EnvMap) (k v : GoStr)
    (hk : cleanKey k) (hv : cleanVal v) :
    readEnvLine e (k ++ '=' :: v) = insertAL e k v := by
  obtain ⟨hke, hkn, hkeq, hkh⟩ := hk
  obtain ⟨hve, hvn⟩ := hv
  have htrim : trim (k ++ '=' :: v) = k ++ '=' :: v :=
    trim_of_noEdge _ (noEdgeSpace_line k v hke hve)
  have hne : k ++ '=' :: v ≠ [] := by cases k <;> simp
  unfold readEnvLine
  rw [htrim, if_neg hne, if_neg (by simp [hasPrefix_hash_line k v hkh]),
    splitEq_append k v hkeq]
  show insertAL e (trim k) (trim v) = insertAL e k v
  rw [trim_of_noEdge k hke, trim_of_noEdge v hve]

theorem splitOnChar_append (sep : Char) (l t : GoStr) (h : sep ∉ l) :
    splitOnChar sep (l ++ sep :: t) = l :: splitOnChar sep t := by
  induction l with
  | nil => simp [splitOnChar]
  | cons c l' ih =>
      have hc : ¬ c = sep := fun he => h (by simp [he])
      have h' : sep ∉ l' := fun hm => h (List.mem_cons_of_mem _ hm)
      have h2 := ih h'
      simp only [List.cons_append, splitOnChar, if_neg hc, List.append_eq, h2]

theorem splitLines_flatten (lines : List GoStr)
    (h : ∀ l ∈ lines, Char.ofNat 10 ∉ l) :
    splitLines ((lines.map (fun l => l ++ [Char.ofNat 10])).flatten) = lines := by
  induction lines with
  | nil => rfl
  | cons l ls ih =>
      have h1 : ((l::ls).map (fun l => l ++ [Char.ofNat 10])).flatten
          = l ++ Char.ofNat 10 :: ((ls.map (fun l => l ++ [Char.ofNat 10])).flatten) := by
        simp
      rw [h1]
      unfold splitLines
      rw [splitOnChar_append _ _ _ (h l (List.mem_cons_self _ _))]
      have h2 := ih (fun l' hl' => h l' (List.mem_cons_of_mem _ hl'))
      unfold splitLines at h2
      rw [h2]

theorem foldl_readEnvLine_kvmap (ks : List GoStr) (f : GoStr → GoStr) (e : EnvMap)
    (h : ∀ k ∈ ks, cleanKey k ∧ cleanVal (f k)) :
    List.foldl readEnvLine e (ks.map (fun k => k ++ '=' :: f k))
      = List.foldl (fun acc k => insertAL acc k (f k)) e ks := by
  induction ks generalizing e with
  | nil => rfl
  | cons k ks ih =>
      rw [List.map_cons, List.foldl_cons, List.foldl_cons,
        readEnvLine_kv e k (f k) (h k (List.mem_cons_self _ _)).1
          (h k (List.mem_cons_self _ _)).2]
      exact ih _ (fun k' hk' => h k' (List.mem_cons_of_mem _ hk'))

theorem lookupAL_foldl_insert_fn (ks : List GoStr) (f : GoStr → GoStr)
    (e : EnvMap) (q : GoStr) (hnd : ks.Nodup) :
    lookupAL (ks.foldl (fun acc k => insertAL acc k (f k)) e) q
      = if q ∈ ks then some (f q) else lookupAL e q := by
  induction ks generalizing e with
  | nil => simp
  | cons k ks ih =>
      rcases List.nodup_cons.1 hnd with ⟨hk, hnd'⟩
      rw [List.foldl_cons, ih _ hnd']
      by_cases hq : q ∈ ks
      · rw [if_pos hq, if_pos (List.mem_cons_of_mem _ hq)]
      · rw [if_neg hq, lookupAL_insertAL]
        by_cases hqk : q = k
        · subst hqk
          rw [if_pos rfl, if_pos (List.mem_cons_self _ _)]
        · rw [if_neg (fun he => hqk he.symm), if_neg (by simp [hqk, hq])]

/-! ### Path resolution lemmas -/

/-- A well-formed path segment: non-empty and not a traversal token. -/
def goodSeg (s : GoStr) : Prop := s ≠ [] ∧ s ≠ ['.'] ∧ s ≠ ['.', '.']

theorem cleanAbsSegs_good_aux (segs : List GoStr)
    (h : ∀ s ∈ segs, goodSeg s) (acc : List GoStr) :
    segs.foldl
      (fun acc seg =>
        if seg = ['.'] then acc
        else if seg = ['.', '.'] then acc.dropLast
        else acc ++ [seg]) acc = acc ++ segs := by
  induction segs generalizing acc with
  | nil => simp
  | cons s ss ih =>
      obtain ⟨h1, h2, h3⟩ := h s (List.mem_cons_self _ _)
      rw [List.foldl_cons, if_neg h2, if_neg h3,
        ih (fun s' hs' => h s' (List.mem_cons_of_mem _ hs'))]
      simp

theorem dropCommon_append (rs : List GoStr) (a b : GoStr) (l1 l2 : List GoStr)
    (hab : a ≠ b) :
    dropCommon (rs ++ a :: l1) (rs ++ b :: l2) = (a :: l1, b :: l2) := by
  induction rs with
  | nil => simp [dropCommon, hab]
  | cons r rs ih => simp [dropCommon, ih]

/-! ### Scan-skip lemmas for `readEnv` -/

theorem readEnvLine_skip (e : EnvMap) (s : GoStr) (h : skippable s) :
    readEnvLine e s = e := by
  unfold readEnvLine
  by_cases h1 : trim s = []
  · rw [if_pos h1]
  · rw [if_neg h1]
    by_cases h2 : hasPrefix (trim s) ['#'] = true
    · rw [if_pos h2]
    · rw [if_neg h2]
      rcases h with h | h | h
      · exact absurd h h1
      · exact absurd h h2
      · rw [h]

theorem foldl_readEnvLine_skip (ls : List GoStr) (h : ∀ s ∈ ls, skippable s)
    (acc : EnvMap) : ls.foldl readEnvLine acc = acc := by
  induction ls generalizing acc with
  | nil => rfl
  | cons s ls ih =>
      rw [List.foldl_cons, readEnvLine_skip _ _ (h s (List.mem_cons_self _ _))]
      exact ih (fun s' hs' => h s' (List.mem_cons_of_mem _ hs')) acc

/-! ### Lemmas for the distribution loop and the stage store -/

theorem runGroups_cons_pass (e : EnvMap) (id : GoStr) (g : Group)
    (rest : List (GoStr × Group))
    (h : (if g.IsCheck then firstEmpty (makeEnv g e) else none) = none) :
    runGroups e ((id, g) :: rest)
      = ((envTarget g.Dir, makeEnv g e) :: (runGroups e rest).1,
          (runGroups e rest).2) := by
  show (match (if g.IsCheck then firstEmpty (makeEnv g e) else none) with
      | some k => (([] : List (GoStr × EnvMap)), some (RunErr.emptyValue k))
      | none =>
          let tail := runGroups e rest
          ((envTarget g.Dir, makeEnv g e) :: tail.1, tail.2)) = _
  rw [h]

theorem storeStage_ok (file : StoreFile) (p s : String)
    (h : file ≠ StoreFile.malformed) :
    storeStage file p s
      = (StoreFile.parsed (insertAL (fileState file) p [("stage", s)]), none) := by
  cases file with
  | malformed => exact absurd rfl h
  | missing => rfl
  | emptyFile => rfl
  | parsed st => rfl

/-! ### Partition correctness of `makeEnv` -/

/-- The three ways a key can legitimately enter the partitioned mapping of
a group: copied unchanged under the group prefix, produced by rewriting
the first occurrence of a replaceable prefix, or listed as a plain key. -/
def partitionSound (group : Group) (base : EnvMap) (k : GoStr) : Prop :=
  (hasPrefix k (group.Prefix ++ ['_']) = true ∧ k ∈ envKeys base)
    ∨ (∃ k0 ∈ envKeys base, ∃ p ∈ group.Replaceable,
        hasPrefix k0 (p ++ ['_']) = true ∧ k = replaceFirst k0 p group.Prefix)
    ∨ (k ∈ group.Plain ∧ k ∈ envKeys base)

theorem mem_keys_replFold (k v : GoStr) (pfx : GoStr) (repl : List GoStr)
    (e : EnvMap) (q : GoStr)
    (h : q ∈ (repl.foldl
      (fun acc p =>
        if hasPrefix k (p ++ ['_']) then insertAL acc (replaceFirst k p pfx) v
        else acc) e).map Prod.fst) :
    q ∈ e.map Prod.fst
      ∨ ∃ p ∈ repl, hasPrefix k (p ++ ['_']) = true ∧ q = replaceFirst k p pfx := by
  induction repl generalizing e with
  | nil => exact Or.inl h
  | cons p ps ih =>
      rw [List.foldl_cons] at h
      rcases ih _ h with h1 | h1
      · by_cases hp : hasPrefix k (p ++ ['_']) = true
        · rw [if_pos hp] at h1
          rcases mem_keys_insertAL _ _ _ _ h1 with h2 | h2
          · exact Or.inr ⟨p, List.mem_cons_self _ _, hp, h2⟩
          · exact Or.inl h2
        · rw [if_neg hp] at h1
          exact Or.inl h1
      · rcases h1 with ⟨p', hp', hpre, hq⟩
        exact Or.inr ⟨p', List.mem_cons_of_mem _ hp', hpre, hq⟩

theorem mem_keys_plainFold (k v : GoStr) (plain : List GoStr)
    (e : EnvMap) (q : GoStr)
    (h : q ∈ (plain.foldl
      (fun acc key => if k = key then insertAL acc k v else acc) e).map Prod.fst) :
    q ∈ e.map Prod.fst ∨ (q = k ∧ k ∈ plain) := by
  induction plain generalizing e with
  | nil => exact Or.inl h
  | cons key ks ih =>
      rw [List.foldl_cons] at h
      rcases ih _ h with h1 | h1
      · by_cases hk : k = key
        · rw [if_pos hk] at h1
          rcases mem_keys_insertAL _ _ _ _ h1 with h2 | h2
          · exact Or.inr ⟨h2, by simp [hk]⟩
          · exact Or.inl h2
        · rw [if_neg hk] at h1
          exact Or.inl h1
      · exact Or.inr ⟨h1.1, List.mem_cons_of_mem _ h1.2⟩

theorem mem_keys_makeEnvStep (group : Group) (e : EnvMap) (k v q : GoStr)
    (h : q ∈ (makeEnvStep group e (k, v)).map Prod.fst) :
    q ∈ e.map Prod.fst
      ∨ (q = k ∧ hasPrefix k (group.Prefix ++ ['_']) = true)
      ∨ (∃ p ∈ group.Replaceable,
          hasPrefix k (p ++ ['_']) = true ∧ q = replaceFirst k p group.Prefix)
      ∨ (q = k ∧ k ∈ group.Plain) := by
  unfold makeEnvStep at h
  rcases mem_keys_plainFold _ _ _ _ _ h with h1 | h1
  · rcases mem_keys_replFold _ _ _ _ _ _ h1 with h2 | h2
    · by_cases hd : hasPrefix k (group.Prefix ++ ['_']) = true
      · rw [if_pos hd] at h2
        rcases mem_keys_insertAL _ _ _ _ h2 with h3 | h3
        · exact Or.inr (Or.inl ⟨h3, hd⟩)
        · exact Or.inl h3
      · rw [if_neg hd] at h2
        exact Or.inl h2
    · exact Or.inr (Or.inr (Or.inl h2))
  · exact Or.inr (Or.inr (Or.inr h1))

theorem envKeys_cons (kv : GoStr × GoStr) (l : EnvMap) :
    envKeys (kv :: l) = kv.1 :: envKeys l := rfl

theorem partitionSound_mono (group : Group) (kv : GoStr × GoStr) (l : EnvMap)
    (q : GoStr) (h : partitionSound group l q) : partitionSound group (kv :: l) q := by
  rcases h with h | h | h
  · exact Or.inl ⟨h.1, by rw [envKeys_cons]; exact List.mem_cons_of_mem _ h.2⟩
  · rcases h with ⟨k0, hk0, p, hp, hpre, hq⟩
    exact Or.inr (Or.inl ⟨k0,
      by rw [envKeys_cons]; exact List.mem_cons_of_mem _ hk0, p, hp, hpre, hq⟩)
  · exact Or.inr (Or.inr ⟨h.1, by rw [envKeys_cons]; exact List.mem_cons_of_mem _ h.2⟩)

theorem mem_keys_makeEnvAux (group : Group) (l : EnvMap) :
    ∀ (acc : EnvMap) (q : GoStr),
      q ∈ (l.foldl (makeEnvStep group) acc).map Prod.fst →
      q ∈ acc.map Prod.fst ∨ partitionSound group l q := by
  induction l with
  | nil => exact fun acc q h => Or.inl h
  | cons kv rest ih =>
      intro acc q h
      rw [List.foldl_cons] at h
      rcases ih _ q h with h1 | h1
      · obtain ⟨k, v⟩ := kv
        rcases mem_keys_makeEnvStep group acc k v q h1 with h2 | h2 | h2 | h2
        · exact Or.inl h2
        · refine Or.inr (Or.inl ⟨?_, ?_⟩)
          · rw [h2.1]; exact h2.2
          · rw [h2.1, envKeys_cons]; exact List.mem_cons_self _ _
        · refine Or.inr (Or.inr (Or.inl ⟨k, ?_, ?_⟩))
          · rw [envKeys_cons]; exact List.mem_cons_self _ _
          · exact h2
        · refine Or.inr (Or.inr (Or.inr ⟨?_, ?_⟩))
          · rw [h2.1]; exact h2.2
          · rw [h2.1, envKeys_cons]; exact List.mem_cons_self _ _
      · exact Or.inr (partitionSound_mono group kv rest q h1)

theorem replFold_id (k : GoStr) (v pfx : GoStr) (repl : List GoStr) (e : EnvMap)
    (h : ∀ p ∈ repl, hasPrefix k (p ++ ['_']) = false) :
    repl.foldl
      (fun acc p =>
        if hasPrefix k (p ++ ['_']) then insertAL acc (replaceFirst k p pfx) v
        else acc) e = e := by
  induction repl with
  | nil => rfl
  | cons p ps ih =>
      rw [List.foldl_cons, if_neg (by simp [h p (List.mem_cons_self _ _)]),
        ih (fun p' hp' => h p' (List.mem_cons_of_mem _ hp'))]

theorem plainFold_id (k v : GoStr) (plain : List GoStr) (e : EnvMap)
    (h : ∀ key ∈ plain, k ≠ key) :
    plain.foldl (fun acc key => if k = key then insertAL acc k v else acc) e = e := by
  induction plain with
  | nil => rfl
  | cons key ks ih =>
      rw [List.foldl_cons, if_neg (h key (List.mem_cons_self _ _)),
        ih (fun key' hk' => h key' (List.mem_cons_of_mem _ hk'))]

theorem makeEnvStep_nonmatch (group : Group) (e : EnvMap) (k v : GoStr)
    (h : matchesGroup group k = false) : makeEnvStep group e (k, v) = e := by
  unfold matchesGroup at h
  simp only [Bool.or_eq_false_iff, List.any_eq_false, decide_eq_true_eq] at h
  obtain ⟨⟨hdir, hrepl⟩, hplain⟩ := h
  have hrepl' : ∀ p ∈ group.Replaceable, hasPrefix k (p ++ ['_']) = false :=
    fun p hp => by simpa using hrepl p hp
  show group.Plain.foldl (fun acc key => if k = key then insertAL acc k v else acc)
    (group.Replaceable.foldl
      (fun acc p =>
        if hasPrefix k (p ++ ['_']) then insertAL acc (replaceFirst k p group.Prefix) v
        else acc)
      (if hasPrefix k (group.Prefix ++ ['_']) then insertAL e k v else e)) = e
  rw [if_neg (by simp [hdir]), replFold_id _ _ group.Prefix _ _ hrepl',
    plainFold_id _ _ _ _ hplain]

theorem makeEnv_filter (group : Group) (base : EnvMap) :
    makeEnv group base
      = makeEnv group (base.filter (fun kv => matchesGroup group kv.1)) := by
  show base.foldl (makeEnvStep group) []
    = (base.filter (fun kv => matchesGroup group kv.1)).foldl (makeEnvStep group) []
  generalize [] = acc
  induction base generalizing acc with
  | nil => rfl
  | cons kv rest ih =>
      obtain ⟨k, v⟩ := kv
      by_cases h : matchesGroup group k = true
      · rw [List.foldl_cons, List.filter_cons_of_pos (by simpa using h), List.foldl_cons]
        exact ih _
      · have hf : matchesGroup group k = false := by
          cases hh : matchesGroup group k with
          | true => exact absurd hh h
          | false => rfl
        rw [List.foldl_cons, List.filter_cons_of_neg (by simp [hf]),
          makeEnvStep_nonmatch group acc k v hf]
        exact ih _

theorem replaceFirst_of_isPrefixOf (k p new : GoStr) (h : p.isPrefixOf k = true) :
    replaceFirst k p new = new ++ k.drop p.length := by
  cases k with
  | nil =>
      have hp : p = [] := by
        cases p with
        | nil => rfl
        | cons c cs => simp [List.isPrefixOf] at h
      subst hp
      simp [replaceFirst]
  | cons c rest => simp [replaceFirst, h]

/-- Decidability of the skip predicate, by unfolding. -/
instance skippableDec (s : GoStr) : Decidable (skippable s) :=
  inferInstanceAs (Decidable
    (trim s = [] ∨ hasPrefix (trim s) ['#'] = true ∨ splitEq (trim s) = none))

/-- Decidability of the edge-whitespace predicate, by unfolding. -/
instance noEdgeSpaceDec (s : GoStr) : Decidable (noEdgeSpace s) :=
  inferInstanceAs (Decidable
    (s.dropWhile isSpace = s ∧ s.reverse.dropWhile isSpace = s.reverse))

/-- Decidability of key cleanliness, by unfolding. -/
instance cleanKeyDec (k : GoStr) : Decidable (cleanKey k) :=
  inferInstanceAs (Decidable
    (noEdgeSpace k ∧ Char.ofNat 10 ∉ k ∧ '=' ∉ k ∧ hasPrefix k ['#'] = false))

/-- Decidability of value cleanliness, by unfolding. -/
instance cleanValDec (v : GoStr) : Decidable (cleanVal v) :=
  inferInstanceAs (Decidable (noEdgeSpace v ∧ Char.ofNat 10 ∉ v))

/-- Decidability of segment well-formedness, by unfolding. -/
instance goodSegDec (s : GoStr) : Decidable (goodSeg s) :=
  inferInstanceAs (Decidable (s ≠ [] ∧ s ≠ ['.'] ∧ s ≠ ['.', '.']))

/-! ### Claim theorems -/

/-- C1: for every group G and source mapping M, every key of the
partitioned mapping `makeEnv G M` (a) starts with the group prefix plus
the underscore separator and is a key of M copied unchanged, or (b) was
produced from a key of M starting with a replaceable prefix plus
separator by replacing the first occurrence of that prefix with the
group prefix, or (c) equals a plain-list entry that is a key of M; and a
key of M matching none of the three rules contributes nothing to the
result. -/
theorem makeEnv_partition_correct (group : Group) (base : EnvMap) :
    (∀ k, k ∈ envKeys (makeEnv group base) → partitionSound group base k)
    ∧ makeEnv group base
        = makeEnv group (base.filter (fun kv => matchesGroup group kv.1)) := by
  constructor
  · intro k hk
    rcases mem_keys_makeEnvAux group base [] k hk with h | h
    · simp at h
    · exact h
  · exact makeEnv_filter group base

/-- The group of the C1 witness: prefix API, replaceable LEGACY, one
plain key. -/
def gW : Group :=
  ⟨"API".data, "dir".data, ["LEGACY".data], ["BAR".data], [], false⟩

/-- The source mapping of the C1 witness. -/
def baseW : EnvMap :=
  [("LEGACY_X".data, "1".data), ("BAR".data, "b".data), ("OTHER".data, "o".data)]

/-- Witness for C1 at a concrete group and mapping: the rewritten key
API_X of the partitioned result satisfies the soundness disjunction. -/
theorem makeEnv_partition_witness : partitionSound gW baseW "API_X".data :=
  (makeEnv_partition_correct gW baseW).1 "API_X".data (by decide)

/-- The group of the C7 scenario: prefix API, one replaceable prefix
LEGACY. -/
def gApi : Group := ⟨"API".data, "ad".data, ["LEGACY".data], [], [], false⟩

/-- C5: writeEnv emits one key=value line per entry terminated by a
newline, ordered by key in ascending lexical order; writing the mapping
Z:1, A:2, C:3 produces exactly A=2, C=3, Z=1 each on its own line, and
writing the empty mapping produces empty content. -/
theorem writeEnv_deterministic :
    writeEnvContent [("Z".data, "1".data), ("A".data, "2".data), ("C".data, "3".data)]
        = "A=2\nC=3\nZ=1\n".data
    ∧ writeEnvContent [] = []
    ∧ (∀ env : EnvMap, (writeEnvLines env).length = env.length)
    ∧ (∀ env : EnvMap, List.Perm (sortStrs (envKeys env)) (envKeys env))
    ∧ (∀ env : EnvMap,
        (sortStrs (envKeys env)).Pairwise (fun a b => lexLt b a = false))
    ∧ (∀ (env : EnvMap), ∀ line ∈ writeEnvLines env,
        ∃ k v, lookupAL env k = some v ∧ line = k ++ '=' :: v) := by
  refine ⟨by decide, rfl, ?_, fun env => sortStrs_perm _, fun env => sortStrs_sorted _, ?_⟩
  · intro env
    unfold writeEnvLines
    rw [List.length_map, (sortStrs_perm (envKeys env)).length_eq]
    exact List.length_map _ _
  · intro env line hline
    rcases List.mem_map.1 hline with ⟨k, hk, rfl⟩
    have hk' : k ∈ envKeys env := (sortStrs_perm (envKeys env)).mem_iff.1 hk
    obtain ⟨v, hv⟩ := mem_keys_lookupAL env k hk'
    refine ⟨k, v, hv, ?_⟩
    rw [lookupD, hv]
    rfl

/-- Witness for C5 on a concrete mapping: the single emitted line of a
one-entry mapping has the key=value shape with a present key. -/
theorem writeEnv_deterministic_witness :
    ∃ k v, lookupAL [(("K".data : GoStr), ("7".data : GoStr))] k = some v
      ∧ ("K=7".data : GoStr) = k ++ '=' :: v :=
  writeEnv_deterministic.2.2.2.2.2 [("K".data, "7".data)] "K=7".data (by decide)

/-- C6: the scan loop of readEnv drops blank lines, comment lines and
lines without a separator anywhere in the file, splits every remaining
line at the first separator and inserts the trimmed key and trimmed
value, lets the last occurrence of a duplicate key win, and yields the
empty mapping (not an error) when no line qualifies. -/
theorem readEnv_scan_rules :
    (∀ pre post s, skippable s →
      readEnvLines (pre ++ s :: post) = readEnvLines (pre ++ post))
    ∧ (∀ ls s k v, trim s ≠ [] → hasPrefix (trim s) ['#'] = false →
        splitEq (trim s) = some (k, v) →
        readEnvLines (ls ++ [s]) = insertAL (readEnvLines ls) (trim k) (trim v))
    ∧ (∀ (m : EnvMap) (k v : GoStr), lookupAL (insertAL m k v) k = some v)
    ∧ (∀ ls, (∀ s ∈ ls, skippable s) → readEnvLines ls = []) := by
  refine ⟨?_, ?_, ?_, ?_⟩
  · intro pre post s hs
    unfold readEnvLines
    rw [List.foldl_append, List.foldl_cons, readEnvLine_skip _ _ hs,
      ← List.foldl_append]
  · intro ls s k v h1 h2 h3
    unfold readEnvLines
    rw [List.foldl_append, List.foldl_cons, List.foldl_nil]
    unfold readEnvLine
    rw [if_neg h1, if_neg (by simp [h2]), h3]
  · intro m k v
    rw [lookupAL_insertAL, if_pos rfl]
  · exact fun ls h => foldl_readEnvLine_skip ls h []

/-- Witness for C6 at concrete lines: a comment line anywhere is
dropped, a key=value line inserts its trimmed parts, and the inserted
key is looked up to its value. -/
theorem readEnv_scan_rules_witness :
    readEnvLines (["A=1".data] ++ "# note".data :: ["B=2".data])
        = readEnvLines (["A=1".data] ++ ["B=2".data])
    ∧ readEnvLines (["A=1".data] ++ [" A = 2 ".data])
        = insertAL (readEnvLines ["A=1".data]) (trim "A ".data) (trim " 2".data)
    ∧ lookupAL (insertAL [] "A".data "2".data) "A".data = some "2".data
    ∧ readEnvLines ["# only".data, "".data, "noequals".data] = [] :=
  ⟨readEnv_scan_rules.1 ["A=1".data] ["B=2".data] "# note".data (by decide),
    readEnv_scan_rules.2.1 ["A=1".data] " A = 2 ".data "A ".data " 2".data
      (by decide) (by decide) (by decide),
    readEnv_scan_rules.2.2.1 [] "A".data "2".data,
    readEnv_scan_rules.2.2.2 ["# only".data, "".data, "noequals".data] (by decide)⟩

/-- C7: with group prefix API and replaceable prefix LEGACY, the source
entry LEGACY_X:1 is delivered as API_X:1 and the key LEGACY_X itself
does not appear in the result; in general the rewritten key replaces
only the first occurrence of the alternate prefix, carrying the whole
remainder of the source key over verbatim (later occurrences of the
substring included). -/
theorem makeEnv_replace_scenario :
    (lookupAL (makeEnv gApi [("LEGACY_X".data, "1".data)]) "API_X".data
        = some "1".data
      ∧ lookupAL (makeEnv gApi [("LEGACY_X".data, "1".data)]) "LEGACY_X".data
        = none)
    ∧ (∀ k p new : GoStr, p.isPrefixOf k = true →
        replaceFirst k p new = new ++ k.drop p.length) := by
  exact ⟨⟨by decide, by decide⟩, replaceFirst_of_isPrefixOf⟩

/-- Witness for C7 on a key holding the alternate prefix twice: only the
leading occurrence is replaced, the embedded one survives verbatim. -/
theorem makeEnv_replace_witness :
    replaceFirst "LEGACY_LEGACY_X".data "LEGACY".data "API".data
      = "API".data ++ "LEGACY_LEGACY_X".data.drop "LEGACY".data.length :=
  makeEnv_replace_scenario.2 "LEGACY_LEGACY_X".data "LEGACY".data "API".data
    (by decide)

/-- C2 counterexample: with project root /r and configuration directory
/r/sub strictly inside it, the candidate ../outside cleans to /r/outside,
which lies inside the root, so resolvePath does not fail with the
escapes-root error; it proceeds to the filesystem stat instead. -/
theorem resolvePath_escape_cex :
    resolvePath [['r']] [['r'], ['s', 'u', 'b']] "../outside".data
        = ResolveOutcome.statPath [['r'], "outside".data]
    ∧ isEscape (resolvePath [['r']] [['r'], ['s', 'u', 'b']] "../outside".data)
        = false := by
  exact ⟨by decide, by decide⟩

/-- C2 (amended): when the configuration directory coincides with the
project root and the root is a named directory (not the filesystem root)
whose last segment is not itself called outside, resolving ../outside
fails with the escapes-root error; the outcome is produced by the purely
lexical phase, before any filesystem access, hence regardless of whether
an entry exists at the resolved location. -/
theorem resolvePath_escape_amended (rs : List GoStr) (lastSeg : GoStr)
    (hgood : ∀ s ∈ rs ++ [lastSeg], goodSeg s)
    (hlast : lastSeg ≠ "outside".data) :
    resolvePath (rs ++ [lastSeg]) (rs ++ [lastSeg]) "../outside".data
      = ResolveOutcome.escapesRoot (rs ++ ["outside".data]) := by
  have habs : joinClean (rs ++ [lastSeg]) "../outside".data
      = rs ++ ["outside".data] := by
    unfold joinClean
    rw [if_neg (by decide : ¬ (isAbsPath "../outside".data = true))]
    have hps : pathSegs "../outside".data = [['.', '.'], "outside".data] := rfl
    rw [hps]
    unfold cleanAbsSegs
    rw [List.foldl_append, cleanAbsSegs_good_aux _ hgood [], List.nil_append,
      List.foldl_cons, if_neg (by decide : ¬ (['.', '.'] : GoStr) = ['.']),
      if_pos rfl, List.dropLast_concat, List.foldl_cons,
      if_neg (by decide : ¬ ("outside".data : GoStr) = ['.']),
      if_neg (by decide : ¬ ("outside".data : GoStr) = ['.', '.']),
      List.foldl_nil]
  have hrel : relSegs (rs ++ [lastSeg]) (rs ++ ["outside".data])
      = [['.', '.'], "outside".data] := by
    unfold relSegs
    rw [show (rs ++ [lastSeg] : List GoStr) = rs ++ lastSeg :: [] from rfl,
      show (rs ++ ["outside".data] : List GoStr) = rs ++ "outside".data :: [] from rfl,
      dropCommon_append rs lastSeg "outside".data [] [] hlast]
    rfl
  show (if hasPrefix
      (joinSegs (relSegs (rs ++ [lastSeg]) (joinClean (rs ++ [lastSeg]) "../outside".data)))
      ['.', '.'] then
        ResolveOutcome.escapesRoot (joinClean (rs ++ [lastSeg]) "../outside".data)
      else
        ResolveOutcome.statPath (joinClean (rs ++ [lastSeg]) "../outside".data))
    = ResolveOutcome.escapesRoot (rs ++ ["outside".data])
  rw [habs, hrel,
    if_pos (by decide :
      hasPrefix (joinSegs [['.', '.'], "outside".data]) ['.', '.'] = true)]

/-- Witness for C2 (amended) at the concrete root /r: resolving
../outside from the root itself stops with the escapes-root error. -/
theorem resolvePath_escape_witness :
    resolvePath [['r']] [['r']] "../outside".data
      = ResolveOutcome.escapesRoot ["outside".data] :=
  resolvePath_escape_amended [] ['r'] (by decide) (by decide)

/-- C3: if a group with the check flag set partitions to a mapping
holding an empty or placeholder value, the distribution loop stops with
the empty-value error at that group, before recording that group
env-file write, and the writes of the groups that came earlier in the
iteration are exactly the writes performed (no rollback). -/
theorem runGroups_empty_value (e : EnvMap) (pre post : List (GoStr × Group))
    (id : GoStr) (g : Group) (k : GoStr)
    (hcheck : g.IsCheck = true)
    (hke : firstEmpty (makeEnv g e) = some k)
    (hpre : (runGroups e pre).2 = none) :
    runGroups e (pre ++ (id, g) :: post)
      = ((runGroups e pre).1, some (RunErr.emptyValue k)) := by
  induction pre with
  | nil =>
      show (match (if g.IsCheck then firstEmpty (makeEnv g e) else none) with
          | some k => (([] : List (GoStr × EnvMap)), some (RunErr.emptyValue k))
          | none =>
              let tail := runGroups e post
              ((envTarget g.Dir, makeEnv g e) :: tail.1, tail.2))
          = ((runGroups e []).1, some (RunErr.emptyValue k))
      rw [hcheck, if_pos rfl, hke]
      rfl
  | cons hd pre ih =>
      obtain ⟨id', g'⟩ := hd
      have hnone : (if g'.IsCheck then firstEmpty (makeEnv g' e) else none) = none := by
        cases hval : (if g'.IsCheck then firstEmpty (makeEnv g' e) else none) with
        | none => rfl
        | some k' =>
            have hbad : (runGroups e ((id', g') :: pre)).2
                = some (RunErr.emptyValue k') := by
              show (match (if g'.IsCheck then firstEmpty (makeEnv g' e) else none) with
                  | some k => (([] : List (GoStr × EnvMap)), some (RunErr.emptyValue k))
                  | none =>
                      let tail := runGroups e pre
                      ((envTarget g'.Dir, makeEnv g' e) :: tail.1, tail.2)).2
                  = some (RunErr.emptyValue k')
              rw [hval]
            rw [hpre] at hbad
            exact Option.noConfusion hbad
      have hstep := runGroups_cons_pass e id' g' pre hnone
      have hpre' : (runGroups e pre).2 = none := by
        rw [hstep] at hpre
        exact hpre
      rw [List.cons_append, runGroups_cons_pass e id' g' (pre ++ (id, g) :: post)
        hnone, ih hpre', hstep]

/-- The checked group of the C3 witness. -/
def gCheckW : Group := ⟨"A".data, "da".data, [], [], [], true⟩

/-- The unchecked group written before the failing one in the C3
witness. -/
def gPassW : Group := ⟨"B".data, "db".data, [], [], [], false⟩

/-- Witness for C3: with an earlier group already distributed, the
checked group holding an empty value stops the loop with the empty-value
error while the earlier write stands. -/
theorem runGroups_empty_value_witness :
    runGroups [("A_X".data, []), ("B_Y".data, "1".data)]
        ([("b".data, gPassW)] ++ ("a".data, gCheckW) :: [])
      = ((runGroups [("A_X".data, []), ("B_Y".data, "1".data)] [("b".data, gPassW)]).1,
          some (RunErr.emptyValue "A_X".data)) :=
  runGroups_empty_value [("A_X".data, []), ("B_Y".data, "1".data)]
    [("b".data, gPassW)] [] "a".data gCheckW "A_X".data rfl (by decide) (by decide)

/-- C4 counterexample: the non-empty mapping with the single key #A and
newline-free value 1 does not survive the round trip: the written line
reads back as a comment, so the key is gone. -/
theorem codec_roundtrip_cex :
    lookupAL (readEnvContent (writeEnvContent [("#A".data, "1".data)])) "#A".data
        = none
    ∧ lookupAL [(("#A".data : GoStr), ("1".data : GoStr))] "#A".data
        = some "1".data
    ∧ Char.ofNat 10 ∉ ("1".data : GoStr)
    ∧ ([(("#A".data : GoStr), ("1".data : GoStr))] : EnvMap) ≠ [] := by
  exact ⟨by decide, by decide, by decide, by decide⟩

/-- C4 (amended): for every non-empty mapping with pairwise-distinct
keys in which every key is newline-free, separator-free, carries no edge
whitespace and does not begin with the comment character, and every
value is newline-free with no edge whitespace, reading back the written
file yields exactly the same key-value associations. -/
theorem codec_roundtrip (M : EnvMap) (_hne : M ≠ []) (hnd : (envKeys M).Nodup)
    (hclean : ∀ kv ∈ M, cleanKey kv.1 ∧ cleanVal kv.2) (q : GoStr) :
    lookupAL (readEnvContent (writeEnvContent M)) q = lookupAL M q := by
  have hcleanks : ∀ k ∈ sortStrs (envKeys M), cleanKey k ∧ cleanVal (lookupD M k) := by
    intro k hk
    have hk' : k ∈ envKeys M := (sortStrs_perm (envKeys M)).mem_iff.1 hk
    obtain ⟨v, hv⟩ := mem_keys_lookupAL M k hk'
    have hc := hclean (k, v) (lookupAL_mem M k v hv)
    have hD : lookupD M k = v := by rw [lookupD, hv]; rfl
    rw [hD]
    exact hc
  have hnl : ∀ line ∈ writeEnvLines M, Char.ofNat 10 ∉ line := by
    intro line hline
    rcases List.mem_map.1 hline with ⟨k, hk, rfl⟩
    obtain ⟨hkc, hvc⟩ := hcleanks k hk
    intro hmem
    rcases List.mem_append.1 hmem with h | h
    · exact hkc.2.1 h
    · rcases List.mem_cons.1 h with h | h
      · exact absurd h (by decide)
      · exact hvc.2 h
  have h1 : readEnvContent (writeEnvContent M)
      = (sortStrs (envKeys M)).foldl
          (fun acc k => insertAL acc k (lookupD M k)) [] := by
    rw [readEnvContent, writeEnvContent, splitLines_flatten _ hnl, readEnvLines]
    exact foldl_readEnvLine_kvmap _ _ _ hcleanks
  have hnds : (sortStrs (envKeys M)).Nodup :=
    ((sortStrs_perm (envKeys M)).nodup_iff).2 hnd
  rw [h1, lookupAL_foldl_insert_fn _ _ _ _ hnds]
  by_cases hq : q ∈ envKeys M
  · rw [if_pos ((sortStrs_perm (envKeys M)).mem_iff.2 hq)]
    obtain ⟨v, hv⟩ := mem_keys_lookupAL M q hq
    rw [hv, lookupD, hv]
    rfl
  · rw [if_neg (fun hc => hq ((sortStrs_perm (envKeys M)).mem_iff.1 hc)),
      (lookupAL_eq_none M q).2 hq]
    rfl

/-- Witness for C4 (amended) on a concrete two-entry mapping. -/
theorem codec_roundtrip_witness :
    lookupAL (readEnvContent (writeEnvContent
        [("B".data, "2".data), ("A".data, "1".data)])) "A".data
      = some "1".data := by
  have h := codec_roundtrip [("B".data, "2".data), ("A".data, "1".data)]
    (by decide) (by decide) (by decide) "A".data
  rw [h]
  decide

/-- C8: after switching to a stage declared in the stage table, reading
the current stage on a configuration with the same absolute path
succeeds and reports that stage, while reading it on a configuration
with a different absolute path that has no entry in the store fails with
the no-stage-stored-for-config error. -/
theorem switch_then_current (table : StageTable) (file : StoreFile)
    (p q s pathv : String)
    (hs : lookupAL table s = some pathv)
    (hm : file ≠ StoreFile.malformed)
    (hq : q ≠ p)
    (habs : lookupAL (fileState file) q = none) :
    (SwitchModel table p file s).2 = none
    ∧ CurrentModel table p (SwitchModel table p file s).1 = Except.ok s
    ∧ CurrentModel table q (SwitchModel table p file s).1
        = Except.error (LemErr.noStageStored q) := by
  have htne : ¬ table = [] := by
    intro h
    rw [h] at hs
    exact Option.noConfusion hs
  have hsw : SwitchModel table p file s
      = (StoreFile.parsed (insertAL (fileState file) p [("stage", s)]), none) := by
    unfold SwitchModel
    rw [if_neg htne, hs, storeStage_ok file p s hm]
  refine ⟨by rw [hsw], ?_, ?_⟩
  · rw [hsw]
    show CurrentModel table p
      (StoreFile.parsed (insertAL (fileState file) p [("stage", s)])) = Except.ok s
    have hload : loadStage
        (StoreFile.parsed (insertAL (fileState file) p [("stage", s)])) p
        = Except.ok s := by
      show (match lookupAL (insertAL (fileState file) p [("stage", s)]) p with
        | none => Except.error (LemErr.noStageStored p)
        | some v =>
            match lookupAL v "stage" with
            | none => Except.error (LemErr.noStageValue p)
            | some stage => Except.ok stage) = Except.ok s
      rw [lookupAL_insertAL, if_pos rfl]
      show (match lookupAL [("stage", s)] "stage" with
        | none => Except.error (LemErr.noStageValue p)
        | some stage => Except.ok stage) = Except.ok s
      rw [show lookupAL [("stage", s)] "stage" = some s from if_pos rfl]
    unfold CurrentModel
    rw [if_neg htne, hload]
    show (match lookupAL table s with
      | none => Except.error (LemErr.stageNotSet s)
      | some val => Except.ok s) = Except.ok s
    rw [hs]
  · rw [hsw]
    show CurrentModel table q
      (StoreFile.parsed (insertAL (fileState file) p [("stage", s)]))
      = Except.error (LemErr.noStageStored q)
    have hload : loadStage
        (StoreFile.parsed (insertAL (fileState file) p [("stage", s)])) q
        = Except.error (LemErr.noStageStored q) := by
      show (match lookupAL (insertAL (fileState file) p [("stage", s)]) q with
        | none => Except.error (LemErr.noStageStored q)
        | some v =>
            match lookupAL v "stage" with
            | none => Except.error (LemErr.noStageValue q)
            | some stage => Except.ok stage)
        = Except.error (LemErr.noStageStored q)
      rw [lookupAL_insertAL, if_neg (fun he => hq he.symm), habs]
    unfold CurrentModel
    rw [if_neg htne, hload]

/-- Witness for C8 on a concrete table, store file and pair of
configuration paths. -/
theorem switch_then_current_witness :
    (SwitchModel [("prod", "p.env")] "/a" StoreFile.missing "prod").2 = none
    ∧ CurrentModel [("prod", "p.env")] "/a"
        (SwitchModel [("prod", "p.env")] "/a" StoreFile.missing "prod").1
      = Except.ok "prod"
    ∧ CurrentModel [("prod", "p.env")] "/b"
        (SwitchModel [("prod", "p.env")] "/a" StoreFile.missing "prod").1
      = Except.error (LemErr.noStageStored "/b") :=
  switch_then_current [("prod", "p.env")] StoreFile.missing "/a" "/b" "prod" "p.env"
    (by decide) (by decide) (by decide) (by decide)

/-- C9: on a parseable store, storeStage rewrites the whole structure
with only the entry of this configuration path set to the new stage
object; the recorded entry of every other configuration path is
preserved unchanged. -/
theorem storeStage_frame (st : StoreState) (p name q : String) (hq : q ≠ p) :
    storeStage (StoreFile.parsed st) p name
        = (StoreFile.parsed (insertAL st p [("stage", name)]), none)
    ∧ lookupAL (insertAL st p [("stage", name)]) q = lookupAL st q
    ∧ lookupAL (insertAL st p [("stage", name)]) p = some [("stage", name)] := by
  refine ⟨rfl, ?_, ?_⟩
  · rw [lookupAL_insertAL, if_neg (fun he => hq he.symm)]
  · rw [lookupAL_insertAL, if_pos rfl]

/-- Witness for C9 on a concrete store holding another configuration
path. -/
theorem storeStage_frame_witness :
    storeStage (StoreFile.parsed [("/other", [("stage", "dev")])]) "/a" "prod"
        = (StoreFile.parsed
            (insertAL [("/other", [("stage", "dev")])] "/a" [("stage", "prod")]),
          none)
    ∧ lookupAL (insertAL [("/other", [("stage", "dev")])] "/a" [("stage", "prod")])
        "/other" = lookupAL [("/other", [("stage", "dev")])] "/other"
    ∧ lookupAL (insertAL [("/other", [("stage", "dev")])] "/a" [("stage", "prod")])
        "/a" = some [("stage", "prod")] :=
  storeStage_frame [("/other", [("stage", "dev")])] "/a" "prod" "/other" (by decide)

/-- C10: when the state file exists, is non-empty and does not parse,
storeStage returns the parse error with the file content unchanged (no
write happens), and Switch on a declared stage surfaces the same error
with the file still unchanged. -/
theorem storeStage_malformed_no_write (table : StageTable) (p s pathv : String)
    (hs : lookupAL table s = some pathv) :
    storeStage StoreFile.malformed p s
        = (StoreFile.malformed, some LemErr.storeParseError)
    ∧ SwitchModel table p StoreFile.malformed s
        = (StoreFile.malformed, some LemErr.storeParseError) := by
  have htne : ¬ table = [] := by
    intro h
    rw [h] at hs
    exact Option.noConfusion hs
  refine ⟨rfl, ?_⟩
  unfold SwitchModel
  rw [if_neg htne, hs]
  rfl

/-- Witness for C10 on a concrete table and path. -/
theorem storeStage_malformed_witness :
    storeStage StoreFile.malformed "/a" "prod"
        = (StoreFile.malformed, some LemErr.storeParseError)
    ∧ SwitchModel [("prod", "p.env")] "/a" StoreFile.malformed "prod"
        = (StoreFile.malformed, some LemErr.storeParseError) :=
  storeStage_malformed_no_write [("prod", "p.env")] "/a" "prod" "p.env" (by decide)

end Lem
